import Mathlib

/-! Memory_Management: fixed-capacity object pool and ring buffer.

A shallow embedding of `src/objectpools.cpp` (`ObjectPool<T, N>`),
`src/ring_buffer.cpp` (`RingBuffer<T, N>`) and of `SerialDevice::Write` from
`src/prealloc.cpp`, followed by the properties established about them.

Conventions of the embedding.

* The C++ arrays `T objects[N]` and `size_t available[N]` are lists; a
  well-formed state has lists of length `N`.
* A C++ reference `T&` into `objects` is represented by the index of the slot
  it designates.
* A member function that may throw returns a pair: the outcome
  (`Except` error or value) and the state the object is left in.
* All counters (`top`, `read`, `write`, `queued`) stay at or below `N`, which
  is itself a `size_t`, so `size_t` arithmetic on them never wraps and is
  carried out in `Nat`.  The one place where wrap-around matters is the
  conversion of the (signed) pointer difference in `ObjectPool::free`, which
  is reduced modulo `2 ^ 64` explicitly.
-/

namespace MemoryManagement

deriving instance DecidableEq for Except

/-! ## ObjectPool (src/objectpools.cpp) -/

/-- The two `std::runtime_error`s thrown by `ObjectPool`. -/
inductive PoolError where
  /-- Thrown by `get`: "All objects are in use". -/
  | allInUse
  /-- Thrown by `free`: "Invalid object". -/
  | invalidObject
deriving DecidableEq

/-- The class `ObjectPool<T, N>`: `T objects[N]; size_t available[N]; size_t top`. -/
structure ObjectPool (T : Type) (N : Nat) where
  objects : List T
  available : List Nat
  top : Nat
deriving DecidableEq

namespace ObjectPool

variable {T : Type} {N : Nat}

/-- The constructor loop `for (size_t i = 0; i < N; i++) available[i] = i;`
run for its first `k` iterations on the array `a`. -/
def initLoop (k : Nat) (a : List Nat) : List Nat :=
  (List.range k).foldl (fun acc i => acc.set i i) a

/-- The constructor `ObjectPool()`: `N` default-initialised objects, the loop
filling `available`, and the member initialiser `top = 0`. -/
def new (T : Type) [Inhabited T] (N : Nat) : ObjectPool T N :=
  { objects := List.replicate N default
    available := initLoop N (List.replicate N 0)
    top := 0 }

/-- The member `T& get()`:
`if (top < N) return objects[available[top++]]; throw "All objects are in use"`.
The returned reference is the slot index `available[top]`. -/
def get (p : ObjectPool T N) : Except PoolError Nat × ObjectPool T N :=
  if p.top < N then
    (.ok (p.available.getD p.top 0), { p with top := p.top + 1 })
  else
    (.error .allInUse, p)

/-- The expression `(ptr - objects) / sizeof(T)` assigned to `size_t idx`.
`ptrdiff` is the value of the pointer subtraction `ptr - objects` (a signed
element count); dividing it by the unsigned `sizeof(T)` first converts it to
`size_t`, i.e. reduces it modulo `2 ^ 64`. -/
def handleIndex (sizeofT : Nat) (ptrdiff : Int) : Nat :=
  (ptrdiff % 2 ^ 64).toNat / sizeofT

/-- The member `void free(const T& obj)`:
`if (idx < N && top > 0) available[--top] = idx; else throw "Invalid object"`.
The argument is identified by `ptrdiff`, the value of `&obj - objects`. -/
def free (sizeofT : Nat) (p : ObjectPool T N) (ptrdiff : Int) :
    Except PoolError Unit × ObjectPool T N :=
  let idx := handleIndex sizeofT ptrdiff
  if idx < N ∧ p.top > 0 then
    (.ok (), { p with top := p.top - 1, available := p.available.set (p.top - 1) idx })
  else
    (.error .invalidObject, p)

/-- The member `size_t requested() const { return top; }`. -/
def requested (p : ObjectPool T N) : Nat := p.top

/-- The value of `&objects[i] - objects`: the handle of backing slot `i`. -/
def slotHandle (i : Nat) : Int := (i : Int)

/-- The pool after `k` consecutive calls of `get()`, with the outcomes of the calls
in call order. -/
def getMany : Nat → ObjectPool T N → List (Except PoolError Nat) × ObjectPool T N
  | 0, p => ([], p)
  | k + 1, p =>
    let r := p.get
    let rest := getMany k r.2
    (r.1 :: rest.1, rest.2)

/-- Class invariant of the data model: both arrays have `N` elements and
`top` does not exceed `N`. -/
def WF (p : ObjectPool T N) : Prop :=
  p.objects.length = N ∧ p.available.length = N ∧ p.top ≤ N

end ObjectPool

/-- The element type of the pool in `main`: `struct Point { int x, y; }`. -/
structure Point where
  x : Int
  y : Int
deriving DecidableEq

instance : Inhabited Point := ⟨⟨0, 0⟩⟩

/-- The value of `sizeof(Point)`: two 4-byte `int`s. -/
def sizeofPoint : Nat := 8

/-- A call made on the pool by client code. -/
inductive PoolOp where
  /-- A call of `get()`. -/
  | get
  /-- A call of `free(obj)`, with `ptrdiff` the value of `&obj - objects`. -/
  | free (ptrdiff : Int)
deriving DecidableEq

/-- A pool together with the bookkeeping of its clients: `loans` lists the
backing slots handed out by a successful `get()` and not yet given back by a
successful `free()` of their handle (a handle `ptrdiff` designates the backing
slot `ptrdiff` when `0 ≤ ptrdiff`). -/
structure LoanedPool (T : Type) (N : Nat) where
  pool : ObjectPool T N
  loans : List Nat
deriving DecidableEq

namespace LoanedPool

variable {T : Type} {N : Nat}

/-- A freshly constructed pool: nothing is on loan. -/
def new (T : Type) [Inhabited T] (N : Nat) : LoanedPool T N :=
  { pool := ObjectPool.new T N, loans := [] }

/-- The handle `ptrdiff` designates a backing slot that is currently on loan. -/
def onLoan (s : LoanedPool T N) (ptrdiff : Int) : Bool :=
  decide (0 ≤ ptrdiff) && decide (ptrdiff.toNat ∈ s.loans)

/-- One client call: the pool performs it, and a successful call updates the loans. -/
def step (sizeofT : Nat) (s : LoanedPool T N) : PoolOp → LoanedPool T N
  | .get =>
    match s.pool.get with
    | (.ok i, p) => { pool := p, loans := i :: s.loans }
    | (.error _, p) => { pool := p, loans := s.loans }
  | .free d =>
    match s.pool.free sizeofT d with
    | (.ok _, p) => { pool := p, loans := if 0 ≤ d then s.loans.erase d.toNat else s.loans }
    | (.error _, p) => { pool := p, loans := s.loans }

/-- A sequence of client calls, performed in order. -/
def run (sizeofT : Nat) (s : LoanedPool T N) (ops : List PoolOp) : LoanedPool T N :=
  ops.foldl (step sizeofT) s

/-- Every `free` of the call sequence is applied to a handle that is on loan at
the time of the call. -/
def freesOnLoan (sizeofT : Nat) : LoanedPool T N → List PoolOp → Bool
  | _, [] => true
  | s, .get :: ops => freesOnLoan sizeofT (s.step sizeofT .get) ops
  | s, .free d :: ops => s.onLoan d && freesOnLoan sizeofT (s.step sizeofT (.free d)) ops

/-- Every successful `get` of the call sequence returns a slot that is not on
loan at the time of the call. -/
def getsFree (sizeofT : Nat) : LoanedPool T N → List PoolOp → Bool
  | _, [] => true
  | s, .get :: ops =>
    (match s.pool.get.1 with
      | .ok i => decide (i ∉ s.loans)
      | .error _ => true) && getsFree sizeofT (s.step sizeofT .get) ops
  | s, .free d :: ops => getsFree sizeofT (s.step sizeofT (.free d)) ops

end LoanedPool

/-! ## RingBuffer (src/ring_buffer.cpp) -/

/-- The `std::runtime_error` thrown by `RingBuffer`. -/
inductive RingError where
  /-- Thrown by `pull`: "No data in the ring buffer". -/
  | noData
deriving DecidableEq

/-- The class `RingBuffer<T, N>`:
`T objects[N]; size_t read = 0; size_t write = 0; size_t queued = 0`. -/
structure RingBuffer (T : Type) (N : Nat) where
  objects : List T
  read : Nat
  write : Nat
  queued : Nat
deriving DecidableEq

namespace RingBuffer

variable {T : Type} {N : Nat}

/-- The constructor `RingBuffer() {}` with the default member initialisers. -/
def new (T : Type) [Inhabited T] (N : Nat) : RingBuffer T N :=
  { objects := List.replicate N default, read := 0, write := 0, queued := 0 }

/-- The member `T& push()`:
`T& current = objects[write]; write = (write + 1) % N;`
`if (queued < N) queued++; else read = (read + 1) % N; return current;`.
The returned reference is the slot index `write` (its old value). -/
def push (b : RingBuffer T N) : Nat × RingBuffer T N :=
  let current := b.write
  let b1 : RingBuffer T N := { b with write := (b.write + 1) % N }
  let b2 : RingBuffer T N :=
    if b1.queued < N then { b1 with queued := b1.queued + 1 }
    else { b1 with read := (b1.read + 1) % N }
  (current, b2)

/-- The member `const T& pull()`:
`if (queued == 0) throw "No data in the ring buffer";`
`T& current = objects[read]; read = (read + 1) % N; queued--; return current;`.
The returned reference is the slot index `read` (its old value). -/
def pull (b : RingBuffer T N) : Except RingError Nat × RingBuffer T N :=
  if b.queued = 0 then
    (.error .noData, b)
  else
    (.ok b.read, { b with read := (b.read + 1) % N, queued := b.queued - 1 })

/-- The member `bool has_data() const { return queued > 0; }`. -/
def has_data (b : RingBuffer T N) : Bool := decide (b.queued > 0)

/-- A client assignment through a reference returned by `push()`:
the slot `i` of `objects` receives the record `v`. -/
def store (b : RingBuffer T N) (i : Nat) (v : T) : RingBuffer T N :=
  { b with objects := b.objects.set i v }

/-- A client read through a reference returned by `pull()`: the record in slot `i`. -/
def load (b : RingBuffer T N) (i : Nat) : Option T := b.objects[i]?

/-- The body of the producer loops of `main`: `Frame& out = frames.push();`
followed by filling `out` with the record `v`. -/
def pushRecord (b : RingBuffer T N) (v : T) : RingBuffer T N :=
  let r := b.push
  r.2.store r.1 v

/-- A producer loop: the records of `vs` are pushed in order. -/
def pushAll (b : RingBuffer T N) (vs : List T) : RingBuffer T N :=
  vs.foldl pushRecord b

/-- The consumer loop of `main`,
`while (frames.has_data()) { const Frame& in = frames.pull(); ... }`,
run for at most `fuel` iterations: the records read, in order, and the final
state.  An exception of `pull` would end the loop. -/
def drain : Nat → RingBuffer T N → List (Option T) × RingBuffer T N
  | 0, b => ([], b)
  | fuel + 1, b =>
    if b.has_data then
      match b.pull with
      | (.ok i, b1) =>
        let r := drain fuel b1
        (b1.load i :: r.1, r.2)
      | (.error _, b1) => ([], b1)
    else
      ([], b)

/-- The queued records, oldest first:
`objects[read], objects[(read + 1) % N], ..., objects[(read + queued - 1) % N]`. -/
def contents (b : RingBuffer T N) : List (Option T) :=
  (List.range b.queued).map (fun k => b.objects[(b.read + k) % N]?)

/-- Class invariant of the data model: `objects` has `N` elements, the cursors
are inside the array, `queued` is at most `N` and is the circular distance
from `read` to `write`. -/
def WF (b : RingBuffer T N) : Prop :=
  b.objects.length = N ∧ b.read < N ∧ b.write < N ∧ b.queued ≤ N ∧
    b.write = (b.read + b.queued) % N

end RingBuffer

/-- A call made on the ring buffer by client code. -/
inductive RingOp (T : Type) where
  /-- A call of `push()` whose returned slot is then filled with `v`. -/
  | push (v : T)
  /-- A call of `pull()`. -/
  | pull
deriving DecidableEq

/-- A ring buffer together with the history of its clients: the records pushed
so far and the records read by the successful pulls so far, both in call order. -/
structure RingTrace (T : Type) (N : Nat) where
  buf : RingBuffer T N
  pushed : List T
  pulled : List (Option T)
deriving DecidableEq

namespace RingTrace

variable {T : Type} {N : Nat}

/-- A freshly constructed buffer with empty history. -/
def new (T : Type) [Inhabited T] (N : Nat) : RingTrace T N :=
  { buf := RingBuffer.new T N, pushed := [], pulled := [] }

/-- One client call, recorded in the history. -/
def step (s : RingTrace T N) : RingOp T → RingTrace T N
  | .push v => { s with buf := s.buf.pushRecord v, pushed := s.pushed ++ [v] }
  | .pull =>
    match s.buf.pull with
    | (.ok i, b) => { s with buf := b, pulled := s.pulled ++ [b.load i] }
    | (.error _, b) => { s with buf := b }

/-- A sequence of client calls, performed in order. -/
def run (s : RingTrace T N) (ops : List (RingOp T)) : RingTrace T N :=
  ops.foldl step s

/-- No `push` of the call sequence is made while `queued == N`. -/
def noOverwrite : RingTrace T N → List (RingOp T) → Bool
  | _, [] => true
  | s, .push v :: ops => decide (s.buf.queued ≠ N) && noOverwrite (s.step (.push v)) ops
  | s, .pull :: ops => noOverwrite (s.step .pull) ops

end RingTrace

namespace ObjectPool

variable {T : Type} {N : Nat}

/-- One client call on the pool: the state the call leaves behind. -/
def step (sizeofT : Nat) (p : ObjectPool T N) : PoolOp → ObjectPool T N
  | .get => p.get.2
  | .free d => (p.free sizeofT d).2

/-- A sequence of client calls, performed in order. -/
def run (sizeofT : Nat) (p : ObjectPool T N) (ops : List PoolOp) : ObjectPool T N :=
  ops.foldl (step sizeofT) p

/-- The number of `get()` calls of the sequence that return a slot. -/
def okGets (sizeofT : Nat) : ObjectPool T N → List PoolOp → Nat
  | _, [] => 0
  | p, .get :: ops =>
    (match p.get.1 with
      | .ok _ => 1
      | .error _ => 0) + okGets sizeofT (p.step sizeofT .get) ops
  | p, .free d :: ops => okGets sizeofT (p.step sizeofT (.free d)) ops

/-- The number of `free()` calls of the sequence that do not throw. -/
def okFrees (sizeofT : Nat) : ObjectPool T N → List PoolOp → Nat
  | _, [] => 0
  | p, .get :: ops => okFrees sizeofT (p.step sizeofT .get) ops
  | p, .free d :: ops =>
    (match (p.free sizeofT d).1 with
      | .ok _ => 1
      | .error _ => 0) + okFrees sizeofT (p.step sizeofT (.free d)) ops

/-- Bounds kept by the pool: both arrays have `N` elements, every entry of
`available` is a slot index below `N`, and `top` does not exceed `N`. -/
def InBounds (p : ObjectPool T N) : Prop :=
  p.objects.length = N ∧ p.available.length = N ∧ (∀ x ∈ p.available, x < N) ∧ p.top ≤ N

end ObjectPool

namespace RingBuffer

variable {T : Type} {N : Nat}

/-- The consumer loop of `main`, run for at most `fuel` iterations, recording
the outcome of every `pull()` call it makes; a throwing `pull()` ends the loop. -/
def drainCalls : Nat → RingBuffer T N → List (Except RingError Nat) × RingBuffer T N
  | 0, b => ([], b)
  | fuel + 1, b =>
    if b.has_data then
      match b.pull with
      | (.ok i, b1) =>
        let r := drainCalls fuel b1
        (.ok i :: r.1, r.2)
      | (.error e, b1) => ([.error e], b1)
    else
      ([], b)

end RingBuffer

namespace LoanedPool

variable {T : Type} {N : Nat}

/-- The free list is exact: `available[top..N)` lists, without repetition,
exactly the slots below `N` that are not on loan. -/
def FreeListExact (s : LoanedPool T N) : Prop :=
  s.pool.available.length = N ∧ s.pool.top ≤ N ∧
    (s.pool.available.drop s.pool.top).Nodup ∧ s.loans.Nodup ∧
    (∀ i, i ∈ s.pool.available.drop s.pool.top ↔ i < N ∧ i ∉ s.loans) ∧
    (∀ i ∈ s.loans, i < N)

end LoanedPool

/-! ## Bounded drop-oldest FIFO queue (the abstract queue the ring buffer is compared with) -/

namespace DropOldestQueue

/-- Abstract `push` of a queue of capacity `N`: append `v`, first dropping the
head if the list already has length `N`. -/
def push {α : Type} (N : Nat) (q : List α) (v : α) : List α :=
  (if q.length = N then q.tail else q) ++ [v]

/-- Abstract `pull`: the head of the list and the list without it, or nothing
when the list is empty. -/
def pull {α : Type} (q : List α) : Option (α × List α) :=
  match q with
  | [] => none
  | x :: rest => some (x, rest)

end DropOldestQueue

/-! ## SerialDevice (src/prealloc.cpp) -/

/-- The constant `kMaxFileNameSize`. -/
def kMaxFileNameSize : Nat := 256

/-- The constant `kBufferSize`. -/
def kBufferSize : Nat := 4096

/-- The `std::runtime_error`s thrown by `SerialDevice`. -/
inductive DeviceError where
  /-- Thrown by `Write`: "Data size exceeds the limit". -/
  | sizeExceeded
  /-- Thrown by `Read`: "Read buffer is too small". -/
  | bufferTooSmall
deriving DecidableEq

/-- The class `SerialDevice`: the file name, the two byte buffers of
`kBufferSize` bytes, the file descriptor and the two lengths. -/
structure SerialDevice where
  device_file_name : List Nat
  input_buffer : List Nat
  output_buffer : List Nat
  file_descriptor : Int
  input_length : Nat
  output_length : Nat
deriving DecidableEq

/-- The call `memcpy(dst, src, n)` on byte arrays: the first `n` bytes of `dst`
are replaced by the first `n` bytes of `src`. -/
def memcpy (dst src : List Nat) (n : Nat) : List Nat :=
  src.take n ++ dst.drop n

namespace SerialDevice

/-- The constructor `SerialDevice()`:
`file_descriptor(-1), input_length(0), output_length(0)`; the arrays are zero-filled here. -/
def new : SerialDevice :=
  { device_file_name := List.replicate kMaxFileNameSize 0
    input_buffer := List.replicate kBufferSize 0
    output_buffer := List.replicate kBufferSize 0
    file_descriptor := -1
    input_length := 0
    output_length := 0 }

/-- The member `bool Write(const uint8_t* data, size_t size)`:
`if (size > sizeof(output_buffer)) throw "Data size exceeds the limit";`
`memcpy(output_buffer, data, size); return true;`.
`data` lists the bytes found at the pointer; `sizeof(output_buffer)` is `kBufferSize`. -/
def Write (d : SerialDevice) (data : List Nat) (size : Nat) :
    Except DeviceError Bool × SerialDevice :=
  if size > kBufferSize then
    (.error .sizeExceeded, d)
  else
    (.ok true, { d with output_buffer := memcpy d.output_buffer data size })

end SerialDevice

/-! ## Lemmas about ObjectPool -/

theorem ObjectPool.initLoop_eq (N k : Nat) (hk : k ≤ N) :
    ObjectPool.initLoop k (List.replicate N 0) = List.range k ++ List.replicate (N - k) 0 := by
  induction k with
  | zero => simp [ObjectPool.initLoop]
  | succ k ih =>
    have hk' : k ≤ N := Nat.le_of_succ_le hk
    have ih' := ih hk'
    unfold ObjectPool.initLoop at ih' ⊢
    rw [List.range_succ, List.foldl_append, ih']
    simp only [List.foldl_cons, List.foldl_nil]
    obtain ⟨m, rfl⟩ : ∃ m, N = k + 1 + m := ⟨N - (k + 1), by omega⟩
    have h1 : k + 1 + m - k = m + 1 := by omega
    have h2 : k + 1 + m - (k + 1) = m := by omega
    rw [h1, h2, List.replicate_succ]
    rw [List.set_append_right _ _ (by simp)]
    simp

theorem ObjectPool.new_available (T : Type) [Inhabited T] (N : Nat) :
    (ObjectPool.new T N).available = List.range N := by
  simp [ObjectPool.new, ObjectPool.initLoop_eq N N (Nat.le_refl N)]

theorem ObjectPool.getMany_add {T : Type} {N : Nat} (k m : Nat) :
    ∀ p : ObjectPool T N,
      ObjectPool.getMany (k + m) p =
        ((ObjectPool.getMany k p).1 ++ (ObjectPool.getMany m (ObjectPool.getMany k p).2).1,
          (ObjectPool.getMany m (ObjectPool.getMany k p).2).2) := by
  induction k with
  | zero => intro p; simp [ObjectPool.getMany]
  | succ k ih =>
    intro p
    have h : k + 1 + m = (k + m) + 1 := by omega
    rw [h]
    simp only [ObjectPool.getMany, ih, List.cons_append]

theorem ObjectPool.getMany_range {T : Type} {N : Nat} (k : Nat) :
    ∀ (p : ObjectPool T N), p.available = List.range N → p.top + k ≤ N →
      ObjectPool.getMany k p =
        ((List.range' p.top k).map Except.ok, { p with top := p.top + k }) := by
  induction k with
  | zero => intro p _ _; simp [ObjectPool.getMany]
  | succ k ih =>
    intro p hav hk
    have hlt : p.top < N := by omega
    have hget : p.get = (.ok p.top, { p with top := p.top + 1 }) := by
      simp [ObjectPool.get, hlt, hav, List.getD_eq_getElem?_getD]
    simp only [ObjectPool.getMany, hget]
    have h := ih { p with top := p.top + 1 } hav (by show p.top + 1 + k ≤ N; omega)
    rw [h]
    simp [List.range'_succ, Nat.add_assoc, Nat.add_comm 1 k]

namespace ObjectPool
variable {T : Type} {N : Nat}

theorem new_inBounds (T : Type) [Inhabited T] (N : Nat) : (ObjectPool.new T N).InBounds := by
  refine ⟨by simp [ObjectPool.new], ?_, ?_, Nat.zero_le _⟩
  · rw [ObjectPool.new_available]; simp
  · rw [ObjectPool.new_available]
    intro x hx
    exact List.mem_range.mp hx

theorem get_of_lt (p : ObjectPool T N) (h : p.top < N) :
    p.get = (Except.ok (p.available.getD p.top 0), { p with top := p.top + 1 }) := by
  simp only [ObjectPool.get]
  rw [if_pos h]

theorem get_of_not_lt (p : ObjectPool T N) (h : ¬ p.top < N) :
    p.get = (Except.error PoolError.allInUse, p) := by
  simp only [ObjectPool.get]
  rw [if_neg h]

theorem free_of_guard (sizeofT : Nat) (p : ObjectPool T N) (d : Int)
    (h : handleIndex sizeofT d < N ∧ p.top > 0) :
    p.free sizeofT d =
      (Except.ok (),
        { p with
          top := p.top - 1
          available := p.available.set (p.top - 1) (handleIndex sizeofT d) }) := by
  simp only [ObjectPool.free]
  rw [if_pos h]

theorem free_of_not_guard (sizeofT : Nat) (p : ObjectPool T N) (d : Int)
    (h : ¬ (handleIndex sizeofT d < N ∧ p.top > 0)) :
    p.free sizeofT d = (Except.error PoolError.invalidObject, p) := by
  simp only [ObjectPool.free]
  rw [if_neg h]

theorem step_inBounds (sizeofT : Nat) (p : ObjectPool T N) (op : PoolOp) (h : p.InBounds) :
    (p.step sizeofT op).InBounds := by
  obtain ⟨ho, ha, hx, ht⟩ := h
  cases op with
  | get =>
    by_cases hlt : p.top < N
    · simp only [step, get_of_lt p hlt]
      exact ⟨ho, ha, hx, hlt⟩
    · simp only [step, get_of_not_lt p hlt]
      exact ⟨ho, ha, hx, ht⟩
  | free d =>
    by_cases hg : handleIndex sizeofT d < N ∧ p.top > 0
    · simp only [step, free_of_guard sizeofT p d hg]
      refine ⟨ho, by simpa using ha, ?_, Nat.le_trans (Nat.sub_le _ _) ht⟩
      intro x hmem
      rcases List.mem_or_eq_of_mem_set hmem with h1 | h1
      · exact hx x h1
      · rw [h1]; exact hg.1
    · simp only [step, free_of_not_guard sizeofT p d hg]
      exact ⟨ho, ha, hx, ht⟩

theorem run_inBounds (sizeofT : Nat) (ops : List PoolOp) :
    ∀ p : ObjectPool T N, p.InBounds → (p.run sizeofT ops).InBounds := by
  induction ops with
  | nil => intro p h; exact h
  | cons op rest ih => intro p h; exact ih _ (step_inBounds sizeofT p op h)

theorem run_counts (sizeofT : Nat) (ops : List PoolOp) :
    ∀ p : ObjectPool T N, p.top ≤ N →
      (p.run sizeofT ops).top + okFrees sizeofT p ops = p.top + okGets sizeofT p ops := by
  induction ops with
  | nil => intro p _; simp [run, okFrees, okGets]
  | cons op rest ih =>
    intro p ht
    cases op with
    | get =>
      have hrun : p.run sizeofT (PoolOp.get :: rest) = (p.step sizeofT .get).run sizeofT rest := rfl
      rw [hrun]
      by_cases hlt : p.top < N
      · have hg := get_of_lt p hlt
        have hs : p.step sizeofT .get = { p with top := p.top + 1 } := by simp [step, hg]
        have := ih (p.step sizeofT .get) (by rw [hs]; exact hlt)
        simp only [okFrees, okGets, hg]
        rw [hs] at this ⊢
        simp only at this ⊢
        omega
      · have hg := get_of_not_lt p hlt
        have hs : p.step sizeofT .get = p := by simp [step, hg]
        have := ih (p.step sizeofT .get) (by rw [hs]; exact ht)
        simp only [okFrees, okGets, hg]
        rw [hs] at this ⊢
        omega
    | free d =>
      have hrun : p.run sizeofT (PoolOp.free d :: rest) =
          (p.step sizeofT (.free d)).run sizeofT rest := rfl
      rw [hrun]
      by_cases hgd : handleIndex sizeofT d < N ∧ p.top > 0
      · have hf := free_of_guard sizeofT p d hgd
        have hs : (p.step sizeofT (.free d)).top = p.top - 1 := by simp [step, hf]
        have := ih (p.step sizeofT (.free d)) (by rw [hs]; omega)
        simp only [okFrees, okGets, hf]
        rw [hs] at this
        have := hgd.2
        omega
      · have hf := free_of_not_guard sizeofT p d hgd
        have hs : p.step sizeofT (.free d) = p := by simp [step, hf]
        have := ih (p.step sizeofT (.free d)) (by rw [hs]; exact ht)
        simp only [okFrees, okGets, hf]
        rw [hs] at this ⊢
        omega

end ObjectPool

theorem ObjectPool.handleIndex_one (d : Int) (n : Nat) (h0 : 0 ≤ d) (hn : d.toNat < n)
    (hsize : n < 2 ^ 64) : ObjectPool.handleIndex 1 d = d.toNat := by
  have h2 : (2 : Int) ^ 64 = 18446744073709551616 := by norm_num
  have h3 : (2 : Nat) ^ 64 = 18446744073709551616 := by norm_num
  rw [h3] at hsize
  simp only [ObjectPool.handleIndex, Nat.div_one, h2]
  omega

/-! ## Lemmas about the loans of a pool -/

namespace LoanedPool
variable {T : Type} {N : Nat}

theorem new_freeListExact (T : Type) [Inhabited T] (N : Nat) :
    (LoanedPool.new T N).FreeListExact := by
  have hav := ObjectPool.new_available T N
  refine ⟨?_, Nat.zero_le _, ?_, List.nodup_nil, ?_, ?_⟩
  · show (ObjectPool.new T N).available.length = N
    rw [hav]; simp
  · show ((ObjectPool.new T N).available.drop 0).Nodup
    rw [hav, List.drop_zero]; exact List.nodup_range N
  · intro i
    show i ∈ (ObjectPool.new T N).available.drop 0 ↔ i < N ∧ i ∉ ([] : List Nat)
    rw [hav, List.drop_zero]; simp
  · intro i hi
    exact absurd hi (List.not_mem_nil i)

theorem step_get_freeListExact (sizeofT : Nat) (s : LoanedPool T N) (h : s.FreeListExact) :
    (s.step sizeofT .get).FreeListExact ∧
      (∀ i, s.pool.get.1 = Except.ok i → i ∉ s.loans) := by
  obtain ⟨hlen, htop, hnd, hl, hmem, hlt⟩ := h
  by_cases hlt' : s.pool.top < N
  · have hg := ObjectPool.get_of_lt s.pool hlt'
    have hin : s.pool.top < s.pool.available.length := by omega
    have hd : s.pool.available.drop s.pool.top =
        s.pool.available[s.pool.top] :: s.pool.available.drop (s.pool.top + 1) :=
      List.drop_eq_getElem_cons hin
    have hgetD : s.pool.available.getD s.pool.top 0 = s.pool.available[s.pool.top] := by
      simp [List.getD_eq_getElem?_getD, List.getElem?_eq_getElem hin]
    rw [hgetD] at hg
    rw [hd] at hnd hmem
    obtain ⟨hnotin, hnd'⟩ := List.nodup_cons.mp hnd
    have hhead := (hmem s.pool.available[s.pool.top]).mp (List.mem_cons_self _ _)
    constructor
    · simp only [step, hg]
      refine ⟨hlen, hlt', hnd', List.nodup_cons.mpr ⟨hhead.2, hl⟩, ?_, ?_⟩
      · intro i
        constructor
        · intro hi
          have h1 := (hmem i).mp (List.mem_cons_of_mem _ hi)
          refine ⟨h1.1, ?_⟩
          intro hc
          rcases List.mem_cons.mp hc with hc | hc
          · rw [hc] at hi; exact hnotin hi
          · exact h1.2 hc
        · rintro ⟨h1, h2⟩
          have h3 : i ∉ s.loans := fun hc => h2 (List.mem_cons_of_mem _ hc)
          have h4 : i ≠ s.pool.available[s.pool.top] := fun hc =>
            h2 (by rw [hc]; exact List.mem_cons_self _ _)
          rcases List.mem_cons.mp ((hmem i).mpr ⟨h1, h3⟩) with hc | hc
          · exact absurd hc h4
          · exact hc
      · intro i hi
        rcases List.mem_cons.mp hi with hc | hc
        · rw [hc]; exact hhead.1
        · exact hlt i hc
    · intro i hi
      rw [hg] at hi
      have : s.pool.available[s.pool.top] = i := by injection hi
      rw [← this]; exact hhead.2
  · have hg := ObjectPool.get_of_not_lt s.pool hlt'
    constructor
    · simp only [step, hg]
      exact ⟨hlen, htop, hnd, hl, hmem, hlt⟩
    · intro i hi
      rw [hg] at hi
      cases hi

theorem step_free_freeListExact (hsize : N < 2 ^ 64) (s : LoanedPool T N) (d : Int)
    (h : s.FreeListExact) (hon : s.onLoan d = true) :
    (s.step 1 (.free d)).FreeListExact := by
  obtain ⟨hlen, htop, hnd, hl, hmem, hlt⟩ := h
  have hd0 : 0 ≤ d := by
    have := hon; simp only [onLoan, Bool.and_eq_true, decide_eq_true_eq] at this; exact this.1
  have hdl : d.toNat ∈ s.loans := by
    have := hon; simp only [onLoan, Bool.and_eq_true, decide_eq_true_eq] at this; exact this.2
  have hdN : d.toNat < N := hlt _ hdl
  have hidx := ObjectPool.handleIndex_one d N hd0 hdN hsize
  by_cases hg : ObjectPool.handleIndex 1 d < N ∧ s.pool.top > 0
  · have hf := ObjectPool.free_of_guard 1 s.pool d hg
    rw [hidx] at hf
    have hpos := hg.2
    have hin : s.pool.top - 1 < (s.pool.available.set (s.pool.top - 1) d.toNat).length := by
      rw [List.length_set]; omega
    have hdrop : (s.pool.available.set (s.pool.top - 1) d.toNat).drop (s.pool.top - 1) =
        d.toNat :: s.pool.available.drop s.pool.top := by
      rw [List.drop_eq_getElem_cons hin, List.getElem_set_self]
      congr 1
      have e : s.pool.top - 1 + 1 = s.pool.top := by omega
      rw [e, List.drop_set_of_lt _ _ (by omega)]
    have hnotin : d.toNat ∉ s.pool.available.drop s.pool.top := fun hc =>
      ((hmem _).mp hc).2 hdl
    simp only [step, hf, hd0, if_true]
    refine ⟨by simpa using hlen, Nat.le_trans (Nat.sub_le _ _) htop, ?_, hl.erase _, ?_, ?_⟩
    · show ((s.pool.available.set (s.pool.top - 1) d.toNat).drop (s.pool.top - 1)).Nodup
      rw [hdrop]
      exact List.nodup_cons.mpr ⟨hnotin, hnd⟩
    · intro i
      show i ∈ (s.pool.available.set (s.pool.top - 1) d.toNat).drop (s.pool.top - 1) ↔
        i < N ∧ i ∉ s.loans.erase d.toNat
      rw [hdrop, List.mem_cons, hl.mem_erase_iff, hmem i]
      constructor
      · rintro (hc | ⟨h1, h2⟩)
        · rw [hc]; exact ⟨hdN, fun hx => hx.1 rfl⟩
        · exact ⟨h1, fun hx => h2 hx.2⟩
      · rintro ⟨h1, h2⟩
        by_cases hi : i = d.toNat
        · left; exact hi
        · right; exact ⟨h1, fun hx => h2 ⟨hi, hx⟩⟩
    · intro i hi
      exact hlt i (List.mem_of_mem_erase hi)
  · have hf := ObjectPool.free_of_not_guard 1 s.pool d hg
    simp only [step, hf]
    exact ⟨hlen, htop, hnd, hl, hmem, hlt⟩

theorem run_freeListExact (hsize : N < 2 ^ 64) (ops : List PoolOp) :
    ∀ s : LoanedPool T N, s.FreeListExact → freesOnLoan 1 s ops = true →
      (s.run 1 ops).FreeListExact ∧ getsFree 1 s ops = true := by
  induction ops with
  | nil => intro s h _; exact ⟨h, rfl⟩
  | cons op rest ih =>
    intro s h hon
    cases op with
    | get =>
      obtain ⟨h1, h2⟩ := step_get_freeListExact 1 s h
      have hon' : freesOnLoan 1 (s.step 1 .get) rest = true := by
        simpa [freesOnLoan] using hon
      obtain ⟨i1, i2⟩ := ih _ h1 hon'
      refine ⟨i1, ?_⟩
      simp only [getsFree, i2, Bool.and_true]
      cases hg : s.pool.get.1 with
      | ok i => simpa using h2 i hg
      | error e => rfl
    | free d =>
      have hsplit : s.onLoan d = true ∧ freesOnLoan 1 (s.step 1 (.free d)) rest = true := by
        simpa [freesOnLoan] using hon
      have h1 := step_free_freeListExact hsize s d h hsplit.1
      obtain ⟨i1, i2⟩ := ih _ h1 hsplit.2
      exact ⟨i1, by simpa [getsFree] using i2⟩

end LoanedPool

/-! ## Lemmas about RingBuffer -/

theorem add_mod_inj {N a j k : Nat} (hj : j < N) (hk : k < N)
    (h : (a + j) % N = (a + k) % N) : j = k := by
  have h1 : a + j ≡ a + k [MOD N] := h
  exact (Nat.ModEq.add_left_cancel' a h1).eq_of_lt_of_lt hj hk

namespace RingBuffer
variable {T : Type} {N : Nat}

theorem new_wf [Inhabited T] (hN : 0 < N) : (RingBuffer.new T N).WF := by
  simp [RingBuffer.new, WF, hN]

theorem pushRecord_queued (b : RingBuffer T N) (v : T) :
    (b.pushRecord v).queued = if b.queued < N then b.queued + 1 else b.queued := by
  unfold pushRecord push store
  by_cases h : b.queued < N <;> simp [h]

theorem pushRecord_wf (hN : 0 < N) (b : RingBuffer T N) (h : b.WF) (v : T) :
    (b.pushRecord v).WF := by
  obtain ⟨hlen, hr, hw, hq, hrw⟩ := h
  unfold pushRecord push store
  by_cases hlt : b.queued < N
  · simp only [hlt, if_true, WF, List.length_set]
    refine ⟨hlen, hr, Nat.mod_lt _ hN, hlt, ?_⟩
    rw [hrw, Nat.mod_add_mod, Nat.add_assoc]
  · have hqN : b.queued = N := by omega
    simp only [hlt, if_false, WF, List.length_set]
    refine ⟨hlen, Nat.mod_lt _ hN, Nat.mod_lt _ hN, hq, ?_⟩
    rw [hrw, hqN, Nat.mod_add_mod, Nat.mod_add_mod, Nat.add_mod_right]
    rw [Nat.add_right_comm, Nat.add_mod_right]

theorem pushRecord_contents (hN : 0 < N) (b : RingBuffer T N) (h : b.WF) (v : T) :
    (b.pushRecord v).contents =
      (if b.queued < N then b.contents else b.contents.tail) ++ [some v] := by
  obtain ⟨hlen, hr, hw, hq, hrw⟩ := h
  unfold pushRecord push store contents
  by_cases hlt : b.queued < N
  · simp only [hlt, if_true]
    rw [List.range_succ, List.map_append]
    congr 1
    · apply List.map_congr_left
      intro k hk
      have hk' : k < b.queued := List.mem_range.mp hk
      have hne : b.write ≠ (b.read + k) % N := by
        rw [hrw]
        intro heq
        have := add_mod_inj (by omega) (by omega) heq
        omega
      simp [List.getElem?_set_ne hne]
    · simp only [List.map_cons, List.map_nil]
      rw [← hrw, List.getElem?_set_self (by omega)]
  · have hqN : b.queued = N := by omega
    have hwr : b.write = b.read := by
      rw [hrw, hqN, Nat.add_mod_right, Nat.mod_eq_of_lt hr]
    simp only [hlt, if_false]
    simp only [hqN, hwr]
    obtain ⟨n, rfl⟩ : ∃ n, N = n + 1 := ⟨N - 1, by omega⟩
    have htail : ∀ f : Nat → Option T,
        (List.map f (List.range (n + 1))).tail = List.map (fun k => f (k + 1)) (List.range n) := by
      intro f
      rw [List.range_succ_eq_map, List.map_cons, List.tail_cons, List.map_map]
      rfl
    rw [htail, List.range_succ, List.map_append]
    congr 1
    · apply List.map_congr_left
      intro k hk
      have hk' : k < n := List.mem_range.mp hk
      have hidx : ((b.read + 1) % (n + 1) + k) % (n + 1) = (b.read + (k + 1)) % (n + 1) := by
        rw [Nat.mod_add_mod]; congr 1; omega
      have hne : b.read ≠ (b.read + (k + 1)) % (n + 1) := by
        intro heq
        have h0 : (b.read + 0) % (n + 1) = (b.read + (k + 1)) % (n + 1) := by
          rw [Nat.add_zero, Nat.mod_eq_of_lt hr]; exact heq
        have := add_mod_inj (by omega) (by omega) h0
        omega
      simp only [hidx]
      rw [List.getElem?_set_ne hne]
    · simp only [List.map_cons, List.map_nil]
      have hidx : ((b.read + 1) % (n + 1) + n) % (n + 1) = b.read := by
        rw [Nat.mod_add_mod, Nat.add_assoc, Nat.add_comm 1 n, Nat.add_mod_right,
          Nat.mod_eq_of_lt hr]
      rw [hidx, List.getElem?_set_self (by omega)]

theorem contents_length (b : RingBuffer T N) : b.contents.length = b.queued := by
  simp [contents]

theorem pull_of_queued (b : RingBuffer T N) (hq : 0 < b.queued) :
    b.pull = (.ok b.read, { b with read := (b.read + 1) % N, queued := b.queued - 1 }) := by
  have : b.queued ≠ 0 := by omega
  simp [pull, this]

theorem pull_wf (hN : 0 < N) (b : RingBuffer T N) (h : b.WF) (hq : 0 < b.queued) :
    (b.pull).2.WF := by
  obtain ⟨hlen, hr, hw, hqN, hrw⟩ := h
  rw [pull_of_queued b hq]
  refine ⟨hlen, Nat.mod_lt _ hN, hw, ?_, ?_⟩
  · show b.queued - 1 ≤ N
    omega
  · show b.write = ((b.read + 1) % N + (b.queued - 1)) % N
    rw [hrw, Nat.mod_add_mod]
    congr 1
    omega

theorem pull_contents (b : RingBuffer T N) (h : b.WF) (hq : 0 < b.queued) :
    b.contents = (b.pull).2.load b.read :: (b.pull).2.contents := by
  obtain ⟨hlen, hr, hw, hqN, hrw⟩ := h
  rw [pull_of_queued b hq]
  unfold contents load
  obtain ⟨m, hm⟩ : ∃ m, b.queued = m + 1 := ⟨b.queued - 1, by omega⟩
  simp only [hm, Nat.add_sub_cancel]
  rw [List.range_succ_eq_map, List.map_cons, List.map_map]
  congr 1
  · rw [Nat.add_zero, Nat.mod_eq_of_lt hr]
  · apply List.map_congr_left
    intro k _
    simp only [Function.comp, Nat.succ_eq_add_one]
    rw [Nat.mod_add_mod]
    congr 2
    omega

theorem drain_spec (hN : 0 < N) (fuel : Nat) :
    ∀ b : RingBuffer T N, b.WF → b.queued ≤ fuel →
      (drain fuel b).1 = b.contents ∧ (drain fuel b).2.queued = 0 ∧ (drain fuel b).2.WF := by
  induction fuel with
  | zero =>
    intro b hwf hq
    have h0 : b.queued = 0 := by omega
    simp [drain, contents, h0, hwf]
  | succ fuel ih =>
    intro b hwf hq
    by_cases h0 : b.queued = 0
    · simp [drain, has_data, contents, h0, hwf]
    · have hpos : 0 < b.queued := by omega
      have hc := pull_contents b hwf hpos
      have hw := pull_wf hN b hwf hpos
      have hp := pull_of_queued b hpos
      have hq' : (b.pull).2.queued ≤ fuel := by
        rw [hp]; show b.queued - 1 ≤ fuel; omega
      obtain ⟨i1, i2, i3⟩ := ih _ hw hq'
      rw [hp] at hc hw i1 i2 i3
      simp only [drain, has_data, hpos, decide_True, if_true, hp]
      exact ⟨by rw [hc, i1], i2, i3⟩

theorem pushAll_contents (hN : 0 < N) (vs : List T) :
    ∀ b : RingBuffer T N, b.WF →
      (b.pushAll vs).WF ∧
      (b.pushAll vs).contents =
        (b.contents ++ vs.map some).drop (b.queued + vs.length - N) := by
  induction vs with
  | nil =>
    intro b hwf
    have : b.queued - N = 0 := by have := hwf.2.2.2.1; omega
    simp [pushAll, hwf, this]
  | cons v rest ih =>
    intro b hwf
    have hwf1 := pushRecord_wf hN b hwf v
    have hc1 := pushRecord_contents hN b hwf v
    have hq1 := pushRecord_queued b v
    obtain ⟨i1, i2⟩ := ih _ hwf1
    have hstep : b.pushAll (v :: rest) = (b.pushRecord v).pushAll rest := rfl
    rw [hstep]
    refine ⟨i1, ?_⟩
    rw [i2, hc1, hq1]
    by_cases hlt : b.queued < N
    · simp only [hlt, if_true, List.map_cons, List.length_cons, List.append_assoc,
        List.singleton_append]
      congr 1
      omega
    · have hqN : b.queued = N := by have := hwf.2.2.2.1; omega
      simp only [hlt, if_false, List.map_cons, List.length_cons, List.append_assoc,
        List.singleton_append]
      have hlen := contents_length b
      cases hcb : b.contents with
      | nil => rw [hcb] at hlen; simp at hlen; omega
      | cons x c =>
        simp only [List.tail_cons, List.cons_append]
        have e1 : b.queued + rest.length - N = rest.length := by omega
        have e2 : b.queued + (rest.length + 1) - N = rest.length + 1 := by omega
        rw [e1, e2, List.drop_succ_cons]

end RingBuffer

namespace RingTrace
variable {T : Type} {N : Nat}

/-- Trace invariant without overwrite: the pushed records are the pulled ones
followed by the queued ones. -/
theorem step_history (hN : 0 < N) (s : RingTrace T N) (op : RingOp T)
    (hwf : s.buf.WF) (hist : s.pushed.map some = s.pulled ++ s.buf.contents)
    (hno : noOverwrite s [op] = true) :
    (s.step op).buf.WF ∧
      (s.step op).pushed.map some = (s.step op).pulled ++ (s.step op).buf.contents := by
  cases op with
  | push v =>
    have hq : s.buf.queued < N := by
      have h1 : s.buf.queued ≠ N := by simpa [noOverwrite] using hno
      have h2 := hwf.2.2.2.1
      omega
    refine ⟨RingBuffer.pushRecord_wf hN _ hwf v, ?_⟩
    show (s.pushed ++ [v]).map some = s.pulled ++ (s.buf.pushRecord v).contents
    rw [RingBuffer.pushRecord_contents hN _ hwf v, if_pos hq, List.map_append, hist,
      List.append_assoc]
    rfl
  | pull =>
    by_cases h0 : s.buf.queued = 0
    · have hp : s.buf.pull = (.error .noData, s.buf) := by simp [RingBuffer.pull, h0]
      simp only [step, hp]
      exact ⟨hwf, hist⟩
    · have hpos : 0 < s.buf.queued := by omega
      have hp := RingBuffer.pull_of_queued s.buf hpos
      have hc := RingBuffer.pull_contents s.buf hwf hpos
      have hw := RingBuffer.pull_wf hN s.buf hwf hpos
      rw [hp] at hc hw
      simp only [step, hp]
      refine ⟨hw, ?_⟩
      rw [hist, hc, List.append_assoc]
      rfl

theorem run_history (hN : 0 < N) (ops : List (RingOp T)) :
    ∀ s : RingTrace T N, s.buf.WF → s.pushed.map some = s.pulled ++ s.buf.contents →
      noOverwrite s ops = true →
      (s.run ops).buf.WF ∧
        (s.run ops).pushed.map some = (s.run ops).pulled ++ (s.run ops).buf.contents := by
  induction ops with
  | nil => intro s hwf hist _; exact ⟨hwf, hist⟩
  | cons op rest ih =>
    intro s hwf hist hno
    have hsplit : noOverwrite s [op] = true ∧ noOverwrite (s.step op) rest = true := by
      cases op <;> simpa [noOverwrite] using hno
    obtain ⟨h1, h2⟩ := step_history hN s op hwf hist hsplit.1
    exact ih (s.step op) h1 h2 hsplit.2

end RingTrace


/-! ## Further lemmas about RingBuffer -/

namespace RingBuffer
variable {T : Type} {N : Nat}

theorem pull_of_empty (b : RingBuffer T N) (h0 : b.queued = 0) :
    b.pull = (Except.error RingError.noData, b) := by
  simp only [RingBuffer.pull]
  rw [if_pos h0]

theorem drainCalls_spec (fuel : Nat) :
    ∀ b : RingBuffer T N, b.queued ≤ fuel →
      (drainCalls fuel b).1.length = b.queued ∧
        (∀ r ∈ (drainCalls fuel b).1, ∃ i, r = Except.ok i) ∧
        (drainCalls fuel b).2.queued = 0 := by
  induction fuel with
  | zero =>
    intro b hq
    have h0 : b.queued = 0 := by omega
    simp [drainCalls, h0]
  | succ fuel ih =>
    intro b hq
    by_cases h0 : b.queued = 0
    · simp [drainCalls, has_data, h0]
    · have hpos : 0 < b.queued := by omega
      have hp := pull_of_queued b hpos
      obtain ⟨i1, i2, i3⟩ := ih { b with read := (b.read + 1) % N, queued := b.queued - 1 }
        (by show b.queued - 1 ≤ fuel; omega)
      simp only [drainCalls, has_data, hpos, decide_True, if_true, hp]
      refine ⟨?_, ?_, i3⟩
      · rw [List.length_cons, i1]
        show b.queued - 1 + 1 = b.queued
        omega
      · intro r hr
        rcases List.mem_cons.mp hr with hc | hc
        · exact ⟨_, hc⟩
        · exact i2 r hc

theorem contents_isSome (hN : 0 < N) (b : RingBuffer T N) (h : b.WF) :
    ∀ x ∈ b.contents, x.isSome = true := by
  intro x hx
  simp only [contents, List.mem_map, List.mem_range] at hx
  obtain ⟨k, _, rfl⟩ := hx
  have hlt : (b.read + k) % N < b.objects.length := by rw [h.1]; exact Nat.mod_lt _ hN
  rw [List.getElem?_eq_getElem hlt]
  rfl

theorem pushRecord_refines (hN : 0 < N) (b : RingBuffer T N) (h : b.WF) (v : T) :
    (b.pushRecord v).contents = DropOldestQueue.push N b.contents (some v) := by
  rw [pushRecord_contents hN b h v]
  unfold DropOldestQueue.push
  rw [contents_length]
  have hq := h.2.2.2.1
  by_cases hlt : b.queued < N
  · rw [if_pos hlt, if_neg (by omega)]
  · rw [if_neg hlt, if_pos (by omega)]

theorem pull_refines (b : RingBuffer T N) (h : b.WF) :
    (∀ i b1, b.pull = (Except.ok i, b1) →
      DropOldestQueue.pull b.contents = some (b1.load i, b1.contents)) ∧
    (∀ e b1, b.pull = (Except.error e, b1) →
      DropOldestQueue.pull b.contents = none ∧ b1 = b) := by
  by_cases h0 : b.queued = 0
  · have hp := pull_of_empty b h0
    rw [hp]
    constructor
    · intro i b1 hc
      have : Except.error RingError.noData = (Except.ok i : Except RingError Nat) :=
        congrArg Prod.fst hc
      cases this
    · intro e b1 hc
      have h2 : b = b1 := congrArg Prod.snd hc
      refine ⟨?_, h2.symm⟩
      simp [contents, h0, DropOldestQueue.pull]
  · have hpos : 0 < b.queued := by omega
    have hp := pull_of_queued b hpos
    have hc := pull_contents b h hpos
    rw [hp] at hc ⊢
    constructor
    · intro i b1 hcc
      have h1 : b.read = i := by
        have := congrArg Prod.fst hcc
        injection this
      have h2 := congrArg Prod.snd hcc
      simp only at h2
      rw [← h1, ← h2, hc]
      rfl
    · intro e b1 hcc
      have : (Except.ok b.read : Except RingError Nat) = Except.error e := congrArg Prod.fst hcc
      cases this

end RingBuffer

namespace RingTrace
variable {T : Type} {N : Nat}

theorem step_wf (hN : 0 < N) (s : RingTrace T N) (op : RingOp T) (hwf : s.buf.WF) :
    (s.step op).buf.WF := by
  cases op with
  | push v => exact RingBuffer.pushRecord_wf hN _ hwf v
  | pull =>
    by_cases h0 : s.buf.queued = 0
    · have hp := RingBuffer.pull_of_empty s.buf h0
      simp only [step, hp]
      exact hwf
    · have hpos : 0 < s.buf.queued := by omega
      have hw := RingBuffer.pull_wf hN s.buf hwf hpos
      have hp := RingBuffer.pull_of_queued s.buf hpos
      rw [hp] at hw
      simp only [step, hp]
      exact hw

theorem run_wf (hN : 0 < N) (ops : List (RingOp T)) :
    ∀ s : RingTrace T N, s.buf.WF → (s.run ops).buf.WF := by
  induction ops with
  | nil => intro s h; exact h
  | cons op rest ih => intro s h; exact ih _ (step_wf hN s op h)

end RingTrace

/-! ## The claims -/

/-- Claim C1: on a freshly constructed `ObjectPool<T, N>`, `N + 1` consecutive
calls of `get()` behave as follows: the first `N` succeed, call number `i`
(counted from 0) returning backing slot `i`, so the returned slots are pairwise
distinct; the last call throws "All objects are in use". -/
theorem ObjectPool.fresh_pool_serves_exactly_N (T : Type) [Inhabited T] (N : Nat) :
    (ObjectPool.getMany (N + 1) (ObjectPool.new T N)).1 =
        (List.range N).map Except.ok ++ [Except.error PoolError.allInUse] ∧
      (∀ i j, i < N → j < N →
        (ObjectPool.getMany (N + 1) (ObjectPool.new T N)).1[i]? =
          (ObjectPool.getMany (N + 1) (ObjectPool.new T N)).1[j]? → i = j) := by
  have hres : (ObjectPool.getMany (N + 1) (ObjectPool.new T N)).1 =
      (List.range N).map Except.ok ++ [Except.error PoolError.allInUse] := by
    have hav := ObjectPool.new_available T N
    have htop : (ObjectPool.new T N).top = 0 := rfl
    have h1 := ObjectPool.getMany_range N (ObjectPool.new T N) hav (by rw [htop]; omega)
    rw [ObjectPool.getMany_add N 1, h1]
    simp [ObjectPool.getMany, ObjectPool.get, htop, List.range_eq_range']
  refine ⟨hres, ?_⟩
  intro i j hi hj h
  rw [hres] at h
  rw [List.getElem?_append_left (by simpa using hi),
    List.getElem?_append_left (by simpa using hj)] at h
  simp only [List.getElem?_map, List.getElem?_range hi, List.getElem?_range hj,
    Option.map_some'] at h
  injection h with h
  injection h

/-- Claim C2: after the records `vs` are pushed, in order, into a fresh
`RingBuffer<T, N>` with `N ≥ 1` (each returned slot being filled before the
next call), `queued` equals `min vs.length N`, and the consumer loop, given
enough iterations, reads exactly the last `min vs.length N` records of `vs` in
push order and leaves `has_data()` false. -/
theorem RingBuffer.pushAll_drain_last (T : Type) [Inhabited T] (N : Nat) (hN : 0 < N)
    (vs : List T) (fuel : Nat) (hfuel : min vs.length N ≤ fuel) :
    ((RingBuffer.new T N).pushAll vs).queued = min vs.length N ∧
    (RingBuffer.drain fuel ((RingBuffer.new T N).pushAll vs)).1 =
      (vs.drop (vs.length - min vs.length N)).map some ∧
    (RingBuffer.drain fuel ((RingBuffer.new T N).pushAll vs)).2.has_data = false := by
  obtain ⟨hwf, hc⟩ := RingBuffer.pushAll_contents hN vs (RingBuffer.new T N) (RingBuffer.new_wf hN)
  have hc0 : (RingBuffer.new T N).contents = [] := by simp [RingBuffer.contents, RingBuffer.new]
  have hq0 : (RingBuffer.new T N).queued = 0 := rfl
  rw [hc0, hq0, List.nil_append, Nat.zero_add] at hc
  have hq : ((RingBuffer.new T N).pushAll vs).queued = min vs.length N := by
    have h := RingBuffer.contents_length ((RingBuffer.new T N).pushAll vs)
    rw [hc] at h
    simp only [List.length_drop, List.length_map] at h
    omega
  obtain ⟨d1, d2, _⟩ := RingBuffer.drain_spec hN fuel _ hwf (by rw [hq]; exact hfuel)
  refine ⟨hq, ?_, ?_⟩
  · rw [d1, hc, List.map_drop]
    congr 1
    omega
  · simp [RingBuffer.has_data, d2]

/-- Scenario B of the overwrite demo in `main`: fifteen records `0..14` pushed
into a ten-slot buffer leave `queued == 10` and are read back as `5..14`. -/
theorem RingBuffer.pushAll_drain_last_witness :
    0 < 10 ∧ min (List.range 15).length 10 ≤ 10 ∧
    ((RingBuffer.new Nat 10).pushAll (List.range 15)).queued = 10 ∧
    (RingBuffer.drain 10 ((RingBuffer.new Nat 10).pushAll (List.range 15))).1 =
      [some 5, some 6, some 7, some 8, some 9, some 10, some 11, some 12, some 13, some 14] ∧
    (RingBuffer.drain 10 ((RingBuffer.new Nat 10).pushAll (List.range 15))).2.has_data = false :=
  ⟨by decide, by decide,
    RingBuffer.pushAll_drain_last Nat 10 (by decide) (List.range 15) 10 (by decide)⟩

/-- Claim C3: for `N ≥ 1` and every sequence of `push()` (with the slot filled)
and `pull()` calls on a fresh `RingBuffer<T, N>` in which no push is made while
`queued == N`, the records read by the successful pulls, in pull order, form an
initial segment of the records pushed, in push order. -/
theorem RingTrace.pulls_follow_push_order (T : Type) [Inhabited T] (N : Nat) (hN : 0 < N)
    (ops : List (RingOp T)) (hno : RingTrace.noOverwrite (RingTrace.new T N) ops = true) :
    ((RingTrace.new T N).run ops).pulled <+: ((RingTrace.new T N).run ops).pushed.map some := by
  obtain ⟨_, h⟩ := RingTrace.run_history hN ops (RingTrace.new T N) (RingBuffer.new_wf hN)
    (by simp [RingTrace.new, RingBuffer.contents, RingBuffer.new]) hno
  rw [h]
  exact List.prefix_append _ _

/-- Scenario A of the demo in `main`: records `0..4` pushed into a ten-slot
buffer and then pulled five times come back as `0, 1, 2, 3, 4`. -/
theorem RingTrace.pulls_follow_push_order_witness :
    0 < 10 ∧
    RingTrace.noOverwrite (RingTrace.new Nat 10)
      [.push 0, .push 1, .push 2, .push 3, .push 4, .pull, .pull, .pull, .pull, .pull] = true ∧
    ((RingTrace.new Nat 10).run
      [.push 0, .push 1, .push 2, .push 3, .push 4, .pull, .pull, .pull, .pull, .pull]).pulled =
      [some 0, some 1, some 2, some 3, some 4] ∧
    ((RingTrace.new Nat 10).run
      [.push 0, .push 1, .push 2, .push 3, .push 4, .pull, .pull, .pull, .pull, .pull]).pulled <+:
    ((RingTrace.new Nat 10).run
      [.push 0, .push 1, .push 2, .push 3, .push 4, .pull, .pull, .pull, .pull, .pull]).pushed.map
      some :=
  ⟨by decide, by decide, by decide,
    RingTrace.pulls_follow_push_order Nat 10 (by decide) _ (by decide)⟩

/-- Claim C4, evaluated on `ObjectPool<Point, 10>` (`sizeof(Point) == 8`): after
`a = get()`, `b = get()`, `free(b)` every `free` was applied to a handle on
loan and slot 0 is still on loan to `a`, yet the next `get()` returns slot 0:
`free` stored `1 / 8 = 0` instead of slot index 1. -/
theorem LoanedPool.get_hands_out_loaned_slot :
    LoanedPool.freesOnLoan sizeofPoint (LoanedPool.new Point 10)
        [.get, .get, .free (ObjectPool.slotHandle 1), .get] = true ∧
      (LoanedPool.run sizeofPoint (LoanedPool.new Point 10)
        [.get, .get, .free (ObjectPool.slotHandle 1)]).loans = [0] ∧
      (LoanedPool.run sizeofPoint (LoanedPool.new Point 10)
        [.get, .get, .free (ObjectPool.slotHandle 1)]).pool.get.1 = Except.ok 0 ∧
      LoanedPool.getsFree sizeofPoint (LoanedPool.new Point 10)
        [.get, .get, .free (ObjectPool.slotHandle 1), .get] = false := by
  decide

/-- Claim C5, evaluated on `ObjectPool<Point, 10>` (`sizeof(Point) == 8`) in the
state after two `get()` calls (`top == 2`): `free` of the handle of backing
slot 1 succeeds but stores index `1 / 8 = 0` at `available[1]`, and the
immediately following `get()` returns slot 0, not slot 1. -/
theorem ObjectPool.free_stores_divided_index :
    (ObjectPool.getMany 2 (ObjectPool.new Point 10)).2.top = 2 ∧
      ((ObjectPool.getMany 2 (ObjectPool.new Point 10)).2.free sizeofPoint
        (ObjectPool.slotHandle 1)).1 = Except.ok () ∧
      ((ObjectPool.getMany 2 (ObjectPool.new Point 10)).2.free sizeofPoint
        (ObjectPool.slotHandle 1)).2.available[1]? = some 0 ∧
      (((ObjectPool.getMany 2 (ObjectPool.new Point 10)).2.free sizeofPoint
        (ObjectPool.slotHandle 1)).2.get).1 = Except.ok 0 := by
  decide

/-- Counterexample to claim C6 as stated, on `ObjectPool<Point, 10>`: after
`a = get()`, `b = get()`, `free(a)` the handle `a` is no longer on loan, yet a
second `free(a)` does not throw and lowers `top` from 1 to 0. -/
theorem ObjectPool.released_handle_accepted_again :
    (LoanedPool.run sizeofPoint (LoanedPool.new Point 10)
        [.get, .get, .free (ObjectPool.slotHandle 0)]).onLoan (ObjectPool.slotHandle 0) = false ∧
      ((LoanedPool.run sizeofPoint (LoanedPool.new Point 10)
        [.get, .get, .free (ObjectPool.slotHandle 0)]).pool.free sizeofPoint
          (ObjectPool.slotHandle 0)).1 = Except.ok () ∧
      (LoanedPool.run sizeofPoint (LoanedPool.new Point 10)
        [.get, .get, .free (ObjectPool.slotHandle 0)]).pool.top = 1 ∧
      ((LoanedPool.run sizeofPoint (LoanedPool.new Point 10)
        [.get, .get, .free (ObjectPool.slotHandle 0)]).pool.free sizeofPoint
          (ObjectPool.slotHandle 0)).2.top = 0 := by
  decide

/-- Claim C6 as amended: in every pool state and for every handle, `free()`
throws "Invalid object" exactly when the index computed from the handle is not
below `N` or no slot is on loan (`top == 0`), and a throwing `free()` leaves
`top`, `available` and the objects unchanged; otherwise it succeeds, whether or
not the handle is on loan. -/
theorem ObjectPool.free_throws_iff {T : Type} {N : Nat} (sizeofT : Nat)
    (p : ObjectPool T N) (ptrdiff : Int) :
    ((p.free sizeofT ptrdiff).1 = Except.error PoolError.invalidObject ↔
        (¬ ObjectPool.handleIndex sizeofT ptrdiff < N ∨ p.top = 0)) ∧
      ((p.free sizeofT ptrdiff).1 = Except.error PoolError.invalidObject →
        (p.free sizeofT ptrdiff).2 = p) ∧
      ((p.free sizeofT ptrdiff).1 ≠ Except.error PoolError.invalidObject →
        (p.free sizeofT ptrdiff).1 = Except.ok () ∧
          (p.free sizeofT ptrdiff).2.top = p.top - 1) := by
  by_cases h : ObjectPool.handleIndex sizeofT ptrdiff < N ∧ p.top > 0
  · have hf : p.free sizeofT ptrdiff =
        (Except.ok (),
          { p with
            top := p.top - 1
            available :=
              p.available.set (p.top - 1) (ObjectPool.handleIndex sizeofT ptrdiff) }) := by
      simp only [ObjectPool.free]
      rw [if_pos h]
    have h2 : p.top ≠ 0 := by omega
    rw [hf]
    simp [h.1, h2]
  · have hf : p.free sizeofT ptrdiff = (Except.error PoolError.invalidObject, p) := by
      simp only [ObjectPool.free]
      rw [if_neg h]
    have h2 : ¬ ObjectPool.handleIndex sizeofT ptrdiff < N ∨ p.top = 0 := by
      by_cases h1 : ObjectPool.handleIndex sizeofT ptrdiff < N
      · right
        have : ¬ p.top > 0 := fun h2 => h ⟨h1, h2⟩
        omega
      · left; exact h1
    rw [hf]
    simp only [true_iff, forall_true_left, ne_eq, not_true_eq_false, false_implies,
      and_true]
    exact h2

/-- Claim C7: whenever `top == 0`, `free()` of any handle throws "Invalid
object" and leaves the pool state unchanged; in particular on a fresh
`ObjectPool<Point, 10>` the calls `a = get()`, `free(a)`, `free(a)` give
occupancy 1, then 0, and the second `free` throws with occupancy still 0. -/
theorem ObjectPool.free_throws_when_nothing_on_loan {T : Type} {N : Nat} (sizeofT : Nat)
    (p : ObjectPool T N) (ptrdiff : Int) (h : p.top = 0) :
    p.free sizeofT ptrdiff = (Except.error PoolError.invalidObject, p) ∧
      ((ObjectPool.new Point 10).get.1 = Except.ok 0 ∧
        (ObjectPool.new Point 10).get.2.requested = 1 ∧
        ((ObjectPool.new Point 10).get.2.free sizeofPoint (ObjectPool.slotHandle 0)).1 =
          Except.ok () ∧
        ((ObjectPool.new Point 10).get.2.free sizeofPoint
          (ObjectPool.slotHandle 0)).2.requested = 0 ∧
        (((ObjectPool.new Point 10).get.2.free sizeofPoint
          (ObjectPool.slotHandle 0)).2.free sizeofPoint (ObjectPool.slotHandle 0)).1 =
          Except.error PoolError.invalidObject ∧
        (((ObjectPool.new Point 10).get.2.free sizeofPoint
          (ObjectPool.slotHandle 0)).2.free sizeofPoint
            (ObjectPool.slotHandle 0)).2.requested = 0) := by
  refine ⟨?_, by decide⟩
  have : ¬ (ObjectPool.handleIndex sizeofT ptrdiff < N ∧ p.top > 0) := by
    intro hc; omega
  simp [ObjectPool.free, this]

/-- The second `free(a)` of the demo sequence `a = get()`, `free(a)`, `free(a)`
on `ObjectPool<Point, 10>` finds `top == 0` and throws, leaving the pool as it was. -/
theorem ObjectPool.free_throws_when_nothing_on_loan_witness :
    ((ObjectPool.new Point 10).get.2.free sizeofPoint (ObjectPool.slotHandle 0)).2.top = 0 ∧
      ((ObjectPool.new Point 10).get.2.free sizeofPoint (ObjectPool.slotHandle 0)).2.free
          sizeofPoint (ObjectPool.slotHandle 0) =
        (Except.error PoolError.invalidObject,
          ((ObjectPool.new Point 10).get.2.free sizeofPoint (ObjectPool.slotHandle 0)).2) :=
  ⟨by decide,
    (ObjectPool.free_throws_when_nothing_on_loan sizeofPoint
      ((ObjectPool.new Point 10).get.2.free sizeofPoint (ObjectPool.slotHandle 0)).2
      (ObjectPool.slotHandle 0) (by decide)).1⟩

/-- Claim C8: in every pool state (with `top ≤ N`, as the data model requires),
`get()` throws exactly when `top == N`; the exception is "All objects are in
use", and a throwing `get()` leaves `top`, `available` and the backing objects
unchanged. -/
theorem ObjectPool.get_throws_iff {T : Type} {N : Nat} (p : ObjectPool T N) (h : p.top ≤ N) :
    ((∃ e, p.get.1 = Except.error e) ↔ p.top = N) ∧
      (∀ e, p.get.1 = Except.error e →
        e = PoolError.allInUse ∧ p.get.2.top = p.top ∧
          p.get.2.available = p.available ∧ p.get.2.objects = p.objects) := by
  by_cases hlt : p.top < N
  · have hg : p.get = (Except.ok (p.available.getD p.top 0), { p with top := p.top + 1 }) := by
      simp only [ObjectPool.get]
      rw [if_pos hlt]
    have hne : p.top ≠ N := by omega
    rw [hg]
    simp [hne]
  · have hg : p.get = (Except.error PoolError.allInUse, p) := by
      simp only [ObjectPool.get]
      rw [if_neg hlt]
    have heq : p.top = N := by omega
    rw [hg]
    refine ⟨⟨fun _ => heq, fun _ => ⟨_, rfl⟩⟩, ?_⟩
    intro e he
    have he' : PoolError.allInUse = e := by
      injection he
    exact ⟨he'.symm, rfl, rfl, rfl⟩

/-- A full `ObjectPool<Point, 10>` (ten slots on loan): `get()` throws and the
pool is unchanged. -/
theorem ObjectPool.get_throws_iff_witness :
    (ObjectPool.getMany 10 (ObjectPool.new Point 10)).2.top ≤ 10 ∧
      (ObjectPool.getMany 10 (ObjectPool.new Point 10)).2.get.1 =
        Except.error PoolError.allInUse ∧
      (ObjectPool.getMany 10 (ObjectPool.new Point 10)).2.get.2.top =
        (ObjectPool.getMany 10 (ObjectPool.new Point 10)).2.top :=
  ⟨by decide, by decide,
    ((ObjectPool.get_throws_iff (ObjectPool.getMany 10 (ObjectPool.new Point 10)).2
      (by decide)).2 PoolError.allInUse (by decide)).2.1⟩

/-- Claim C9: in every ring-buffer state, `pull()` throws exactly when
`queued == 0`; the exception is "No data in the ring buffer", and a throwing
`pull()` leaves `read`, `write`, `queued` and the stored records unchanged. -/
theorem RingBuffer.pull_throws_iff {T : Type} {N : Nat} (b : RingBuffer T N) :
    ((∃ e, b.pull.1 = Except.error e) ↔ b.queued = 0) ∧
      (∀ e, b.pull.1 = Except.error e →
        e = RingError.noData ∧ b.pull.2.read = b.read ∧ b.pull.2.write = b.write ∧
          b.pull.2.queued = b.queued ∧ b.pull.2.objects = b.objects) := by
  by_cases h0 : b.queued = 0
  · have hp : b.pull = (Except.error RingError.noData, b) := by
      simp only [RingBuffer.pull]
      rw [if_pos h0]
    rw [hp]
    refine ⟨⟨fun _ => h0, fun _ => ⟨_, rfl⟩⟩, ?_⟩
    intro e he
    have he' : RingError.noData = e := by
      injection he
    exact ⟨he'.symm, rfl, rfl, rfl, rfl⟩
  · have hp := RingBuffer.pull_of_queued b (by omega)
    rw [hp]
    simp [h0]

/-- Claim C10: for `N ≥ 1` and every state with `read, write < N` and
`queued ≤ N`, `push()` returns (it cannot throw) the slot at the old `write`
index, which lies inside the array, and sets `write` to `(write + 1) % N`,
keeping both cursors below `N` and the stored records untouched; if `queued < N` it increments `queued`
and leaves `read` unchanged, otherwise it sets `read` to `(read + 1) % N` and
leaves `queued` equal to `N`. -/
theorem RingBuffer.push_effect {T : Type} {N : Nat} (hN : 0 < N) (b : RingBuffer T N)
    (hr : b.read < N) (hw : b.write < N) (hq : b.queued ≤ N) :
    b.push.1 = b.write ∧ b.push.1 < N ∧
      b.push.2.write = (b.write + 1) % N ∧ b.push.2.write < N ∧ b.push.2.read < N ∧
      b.push.2.objects = b.objects ∧
      (b.queued < N → b.push.2.queued = b.queued + 1 ∧ b.push.2.read = b.read) ∧
      (¬ b.queued < N → b.push.2.read = (b.read + 1) % N ∧ b.push.2.queued = N) := by
  by_cases hlt : b.queued < N
  · have hp : b.push = (b.write,
        { b with write := (b.write + 1) % N, queued := b.queued + 1 }) := by
      simp only [RingBuffer.push]
      rw [if_pos hlt]
    rw [hp]
    exact ⟨rfl, hw, rfl, Nat.mod_lt _ hN, hr, rfl, fun _ => ⟨rfl, rfl⟩,
      fun hc => absurd hlt hc⟩
  · have hqN : b.queued = N := by omega
    have hp : b.push = (b.write,
        { b with write := (b.write + 1) % N, read := (b.read + 1) % N }) := by
      simp only [RingBuffer.push]
      rw [if_neg hlt]
    rw [hp]
    exact ⟨rfl, hw, rfl, Nat.mod_lt _ hN, Nat.mod_lt _ hN, rfl, fun hc => absurd hc hlt,
      fun _ => ⟨rfl, hqN⟩⟩

/-- A full ten-slot buffer with both cursors at slot 9: `push()` returns slot 9,
wraps `write` and `read` to 0 and keeps `queued` at 10. -/
theorem RingBuffer.push_effect_witness :
    (0 < 10 ∧ 9 < 10 ∧ 10 ≤ 10) ∧
      (RingBuffer.mk (List.replicate 10 (0 : Nat)) 9 9 10 : RingBuffer Nat 10).push.1 = 9 ∧
      (RingBuffer.mk (List.replicate 10 (0 : Nat)) 9 9 10 : RingBuffer Nat 10).push.2.write = 0 ∧
      (RingBuffer.mk (List.replicate 10 (0 : Nat)) 9 9 10 : RingBuffer Nat 10).push.2.read = 0 ∧
      (RingBuffer.mk (List.replicate 10 (0 : Nat)) 9 9 10 : RingBuffer Nat 10).push.2.queued = 10 :=
  have h := RingBuffer.push_effect (by decide : 0 < 10)
    (RingBuffer.mk (List.replicate 10 (0 : Nat)) 9 9 10 : RingBuffer Nat 10)
    (by decide) (by decide) (by decide)
  ⟨by decide, h.1, h.2.2.1, (h.2.2.2.2.2.2.2 (by decide)).1, (h.2.2.2.2.2.2.2 (by decide)).2⟩

/-- Counterexample to claim C11 as stated, on `ObjectPool<Point, 10>`: after
`a = get()`, `b = get()`, `free(a)` (handle `a` of slot 0, on loan) the
`available` array is `[0, 0, 2, 3, ..., 9]`: index 0 occurs twice, index 1 is
gone, so the array is not a permutation of `[0, 10)`. -/
theorem ObjectPool.available_not_permutation :
    (ObjectPool.run sizeofPoint (ObjectPool.new Point 10)
        [.get, .get, .free (ObjectPool.slotHandle 0)]).available =
        [0, 0, 2, 3, 4, 5, 6, 7, 8, 9] ∧
      ¬ List.Perm (ObjectPool.run sizeofPoint (ObjectPool.new Point 10)
        [.get, .get, .free (ObjectPool.slotHandle 0)]).available (List.range 10) := by
  decide

/-- Claim C11 as amended: in every state reached from a fresh pool by any
sequence of `get()`/`free()` calls with arbitrary handles and any element
size, `available` has `N` entries, each of them an index of `[0, N)`, and
`top ≤ N`; the fresh `available` is a permutation of `[0, N)` (the identity)
and `get()` never modifies `available`. -/
theorem ObjectPool.available_stays_in_range (T : Type) [Inhabited T] (N sizeofT : Nat)
    (ops : List PoolOp) :
    (ObjectPool.run sizeofT (ObjectPool.new T N) ops).available.length = N ∧
      (∀ x ∈ (ObjectPool.run sizeofT (ObjectPool.new T N) ops).available, x < N) ∧
      (ObjectPool.run sizeofT (ObjectPool.new T N) ops).top ≤ N ∧
      List.Perm (ObjectPool.new T N).available (List.range N) ∧
      (∀ p : ObjectPool T N, p.get.2.available = p.available) := by
  obtain ⟨_, h1, h2, h3⟩ :=
    ObjectPool.run_inBounds sizeofT ops (ObjectPool.new T N) (ObjectPool.new_inBounds T N)
  refine ⟨h1, h2, h3, ?_, ?_⟩
  · rw [ObjectPool.new_available]
  · intro p
    by_cases hlt : p.top < N
    · rw [ObjectPool.get_of_lt p hlt]
    · rw [ObjectPool.get_of_not_lt p hlt]

/-- Claim C12: in every state reached from a fresh `RingBuffer<T, N>`, `N ≥ 1`,
by any sequence of `push()` (with the slot filled) and `pull()` calls,
`read < N`, `write < N`, `queued ≤ N` and `write == (read + queued) % N`. -/
theorem RingTrace.reachable_cursors (T : Type) [Inhabited T] (N : Nat) (hN : 0 < N)
    (ops : List (RingOp T)) :
    ((RingTrace.new T N).run ops).buf.read < N ∧
      ((RingTrace.new T N).run ops).buf.write < N ∧
      ((RingTrace.new T N).run ops).buf.queued ≤ N ∧
      ((RingTrace.new T N).run ops).buf.write =
        (((RingTrace.new T N).run ops).buf.read + ((RingTrace.new T N).run ops).buf.queued) % N := by
  obtain ⟨_, h1, h2, h3, h4⟩ :=
    RingTrace.run_wf hN ops (RingTrace.new T N) (RingBuffer.new_wf hN)
  exact ⟨h1, h2, h3, h4⟩

/-- Three pushes into a two-slot buffer followed by one pull: the cursors are
`read = 0`, `write = 1`, `queued = 1`. -/
theorem RingTrace.reachable_cursors_witness :
    0 < 2 ∧
      ((RingTrace.new Nat 2).run [.push 7, .push 8, .push 9, .pull]).buf.read = 0 ∧
      ((RingTrace.new Nat 2).run [.push 7, .push 8, .push 9, .pull]).buf.queued = 1 ∧
      ((RingTrace.new Nat 2).run [.push 7, .push 8, .push 9, .pull]).buf.write =
        (((RingTrace.new Nat 2).run [.push 7, .push 8, .push 9, .pull]).buf.read +
          ((RingTrace.new Nat 2).run [.push 7, .push 8, .push 9, .pull]).buf.queued) % 2 :=
  ⟨by decide, by decide, by decide,
    (RingTrace.reachable_cursors Nat 2 (by decide) [.push 7, .push 8, .push 9, .pull]).2.2.2⟩

/-- Claim C13: after any sequence of `get()`/`free()` calls on a fresh pool,
`requested()` (a function of the state alone, returning `top`) lies in
`[0, N]` and equals the number of successful `get()` calls minus the number of
successful `free()` calls; and a successful `free()` followed by a `get()`,
which then succeeds, restores the occupancy that held before the `free()`. -/
theorem ObjectPool.requested_counts_loans (T : Type) [Inhabited T] (N sizeofT : Nat)
    (ops : List PoolOp) :
    (ObjectPool.run sizeofT (ObjectPool.new T N) ops).requested =
        (ObjectPool.run sizeofT (ObjectPool.new T N) ops).top ∧
      (ObjectPool.run sizeofT (ObjectPool.new T N) ops).requested ≤ N ∧
      ObjectPool.okFrees sizeofT (ObjectPool.new T N) ops ≤
        ObjectPool.okGets sizeofT (ObjectPool.new T N) ops ∧
      (ObjectPool.run sizeofT (ObjectPool.new T N) ops).requested =
        ObjectPool.okGets sizeofT (ObjectPool.new T N) ops -
          ObjectPool.okFrees sizeofT (ObjectPool.new T N) ops ∧
      (∀ d : Int,
        ((ObjectPool.run sizeofT (ObjectPool.new T N) ops).free sizeofT d).1 = Except.ok () →
        (∃ i, ((ObjectPool.run sizeofT (ObjectPool.new T N) ops).free sizeofT d).2.get.1 =
            Except.ok i) ∧
          ((ObjectPool.run sizeofT (ObjectPool.new T N) ops).free sizeofT d).2.get.2.requested =
            (ObjectPool.run sizeofT (ObjectPool.new T N) ops).requested) := by
  have hb := ObjectPool.run_inBounds sizeofT ops (ObjectPool.new T N)
    (ObjectPool.new_inBounds T N)
  have hc := ObjectPool.run_counts sizeofT ops (ObjectPool.new T N) (Nat.zero_le _)
  have h0 : (ObjectPool.new T N).top = 0 := rfl
  rw [h0, Nat.zero_add] at hc
  generalize ObjectPool.run sizeofT (ObjectPool.new T N) ops = p at hb hc ⊢
  obtain ⟨_, _, _, ht⟩ := hb
  refine ⟨rfl, ht, by omega, ?_, ?_⟩
  · show p.top = _
    omega
  · intro d hd
    by_cases hg : ObjectPool.handleIndex sizeofT d < N ∧ p.top > 0
    · have hf := ObjectPool.free_of_guard sizeofT p d hg
      rw [hf]
      have hpos := hg.2
      have hlt : ({ p with
          top := p.top - 1
          available :=
            p.available.set (p.top - 1) (ObjectPool.handleIndex sizeofT d) } :
            ObjectPool T N).top < N := by
        show p.top - 1 < N
        omega
      rw [ObjectPool.get_of_lt _ hlt]
      refine ⟨⟨_, rfl⟩, ?_⟩
      show p.top - 1 + 1 = p.top
      omega
    · rw [ObjectPool.free_of_not_guard sizeofT p d hg] at hd
      cases hd

/-- Claim C14: `has_data()` (a function of the state alone) is true exactly
when `queued > 0`, and `pull()` succeeds exactly when `has_data()` is true;
from any state, the loop that pulls while `has_data()` is true, given at
least `queued` iterations, makes exactly `queued` calls of `pull()`, every one
of which succeeds, and ends with `has_data()` false. -/
theorem RingBuffer.drain_makes_queued_pulls {T : Type} {N : Nat} (b : RingBuffer T N)
    (fuel : Nat) (hfuel : b.queued ≤ fuel) :
    (b.has_data = true ↔ b.queued > 0) ∧
      ((∃ i, b.pull.1 = Except.ok i) ↔ b.has_data = true) ∧
      (RingBuffer.drainCalls fuel b).1.length = b.queued ∧
      (∀ r ∈ (RingBuffer.drainCalls fuel b).1, ∃ i, r = Except.ok i) ∧
      (RingBuffer.drainCalls fuel b).2.has_data = false := by
  obtain ⟨h1, h2, h3⟩ := RingBuffer.drainCalls_spec fuel b hfuel
  refine ⟨by simp [RingBuffer.has_data], ?_, h1, h2, by simp [RingBuffer.has_data, h3]⟩
  by_cases h0 : b.queued = 0
  · rw [RingBuffer.pull_of_empty b h0]
    simp [RingBuffer.has_data, h0]
  · rw [RingBuffer.pull_of_queued b (by omega)]
    simp [RingBuffer.has_data]
    omega

/-- Scenario A of the demo in `main`: after five pushes into a ten-slot buffer
the consumer loop makes five successful pulls, of slots 0 to 4, and stops
with `has_data()` false. -/
theorem RingBuffer.drain_makes_queued_pulls_witness :
    ((RingBuffer.new Nat 10).pushAll [0, 1, 2, 3, 4]).queued ≤ 5 ∧
      (RingBuffer.drainCalls 5 ((RingBuffer.new Nat 10).pushAll [0, 1, 2, 3, 4])).1 =
        [Except.ok 0, Except.ok 1, Except.ok 2, Except.ok 3, Except.ok 4] ∧
      (RingBuffer.drainCalls 5 ((RingBuffer.new Nat 10).pushAll [0, 1, 2, 3, 4])).2.has_data =
        false :=
  ⟨by decide, by decide,
    (RingBuffer.drain_makes_queued_pulls ((RingBuffer.new Nat 10).pushAll [0, 1, 2, 3, 4]) 5
      (by decide)).2.2.2.2⟩

/-- Claim C15: with the abstraction `contents` (the records
`objects[read], objects[(read + 1) % N], ..., objects[(read + queued - 1) % N]`),
in every state reached from a fresh `RingBuffer<T, N>`, `N ≥ 1`, by any
sequence of pushes and pulls (overwrites included): a push that stores `v`
is the abstract push (append `v`, first dropping the head if the list has
length `N`); a successful pull returns the head of the list and leaves its
tail; a failing pull happens only on the empty list and changes nothing. -/
theorem RingTrace.refines_drop_oldest_queue (T : Type) [Inhabited T] (N : Nat) (hN : 0 < N)
    (ops : List (RingOp T)) :
    (∀ x ∈ ((RingTrace.new T N).run ops).buf.contents, x.isSome = true) ∧
      ((RingTrace.new T N).run ops).buf.contents.length ≤ N ∧
      (∀ v : T, (((RingTrace.new T N).run ops).buf.pushRecord v).contents =
        DropOldestQueue.push N ((RingTrace.new T N).run ops).buf.contents (some v)) ∧
      (∀ i b1, ((RingTrace.new T N).run ops).buf.pull = (Except.ok i, b1) →
        DropOldestQueue.pull ((RingTrace.new T N).run ops).buf.contents =
          some (b1.load i, b1.contents)) ∧
      (∀ e b1, ((RingTrace.new T N).run ops).buf.pull = (Except.error e, b1) →
        DropOldestQueue.pull ((RingTrace.new T N).run ops).buf.contents = none ∧
          b1 = ((RingTrace.new T N).run ops).buf) := by
  have hwf := RingTrace.run_wf hN ops (RingTrace.new T N) (RingBuffer.new_wf hN)
  generalize ((RingTrace.new T N).run ops).buf = b at hwf ⊢
  refine ⟨RingBuffer.contents_isSome hN b hwf, ?_,
    fun v => RingBuffer.pushRecord_refines hN b hwf v,
    (RingBuffer.pull_refines b hwf).1, (RingBuffer.pull_refines b hwf).2⟩
  rw [RingBuffer.contents_length]
  exact hwf.2.2.2.1

/-- A two-slot buffer after pushing 7, 8, 9 holds `[8, 9]`; pushing 5 drops 8,
and a pull returns 8 and leaves `[9]`. -/
theorem RingTrace.refines_drop_oldest_queue_witness :
    0 < 2 ∧
      ((RingTrace.new Nat 2).run [.push 7, .push 8, .push 9]).buf.contents = [some 8, some 9] ∧
      (((RingTrace.new Nat 2).run [.push 7, .push 8, .push 9]).buf.pushRecord 5).contents =
        [some 9, some 5] ∧
      (((RingTrace.new Nat 2).run [.push 7, .push 8, .push 9]).buf.pushRecord 5).contents =
        DropOldestQueue.push 2
          ((RingTrace.new Nat 2).run [.push 7, .push 8, .push 9]).buf.contents (some 5) :=
  ⟨by decide, by decide, by decide,
    (RingTrace.refines_drop_oldest_queue Nat 2 (by decide)
      [.push 7, .push 8, .push 9]).2.2.1 5⟩

/-- Claim C16: in every state reached from a fresh pool by any sequence of
`get()`/`free()` calls with arbitrary handles and any element size, every
entry of `available` is below `N` and `top ≤ N`; hence whenever `get()`
succeeds (`top < N`) the entry `available[top]` exists, is the slot returned,
and designates an element of the backing array `objects`. -/
theorem ObjectPool.get_stays_inside_array (T : Type) [Inhabited T] (N sizeofT : Nat)
    (ops : List PoolOp) :
    (∀ x ∈ (ObjectPool.run sizeofT (ObjectPool.new T N) ops).available, x < N) ∧
      (ObjectPool.run sizeofT (ObjectPool.new T N) ops).top ≤ N ∧
      (ObjectPool.run sizeofT (ObjectPool.new T N) ops).objects.length = N ∧
      (∀ i, (ObjectPool.run sizeofT (ObjectPool.new T N) ops).get.1 = Except.ok i →
        (ObjectPool.run sizeofT (ObjectPool.new T N) ops).available[
            (ObjectPool.run sizeofT (ObjectPool.new T N) ops).top]? = some i ∧
          i < N ∧
          ((ObjectPool.run sizeofT (ObjectPool.new T N) ops).objects[i]?).isSome = true) := by
  have hb := ObjectPool.run_inBounds sizeofT ops (ObjectPool.new T N)
    (ObjectPool.new_inBounds T N)
  generalize ObjectPool.run sizeofT (ObjectPool.new T N) ops = p at hb ⊢
  obtain ⟨ho, ha, hx, ht⟩ := hb
  refine ⟨hx, ht, ho, ?_⟩
  intro i hi
  by_cases hlt : p.top < N
  · rw [ObjectPool.get_of_lt p hlt] at hi
    have hin : p.top < p.available.length := by omega
    have hgetD : p.available.getD p.top 0 = p.available[p.top] := by
      simp [List.getD_eq_getElem?_getD, List.getElem?_eq_getElem hin]
    have hi' : p.available[p.top] = i := by
      rw [hgetD] at hi
      injection hi
    have hiN : i < N := by rw [← hi']; exact hx _ (List.getElem_mem hin)
    refine ⟨by rw [List.getElem?_eq_getElem hin, hi'], hiN, ?_⟩
    rw [List.getElem?_eq_getElem (by omega)]
    rfl
  · rw [ObjectPool.get_of_not_lt p hlt] at hi
    cases hi

/-- Claim C17: with element size 1 and `N` a `size_t` value, after any sequence
of `get()`/`free()` calls on a fresh pool in which every `free()` is applied
to a handle on loan, the entries `available[top..N)` are pairwise distinct and
are exactly the slots below `N` that are not on loan, and every successful
`get()` of the sequence returned a slot that was not on loan. -/
theorem LoanedPool.free_list_exact_for_byte_elements (T : Type) [Inhabited T] (N : Nat)
    (hsize : N < 2 ^ 64) (ops : List PoolOp)
    (hon : LoanedPool.freesOnLoan 1 (LoanedPool.new T N) ops = true) :
    ((LoanedPool.run 1 (LoanedPool.new T N) ops).pool.available.drop
        (LoanedPool.run 1 (LoanedPool.new T N) ops).pool.top).Nodup ∧
      (∀ i, i ∈ (LoanedPool.run 1 (LoanedPool.new T N) ops).pool.available.drop
          (LoanedPool.run 1 (LoanedPool.new T N) ops).pool.top ↔
        i < N ∧ i ∉ (LoanedPool.run 1 (LoanedPool.new T N) ops).loans) ∧
      LoanedPool.getsFree 1 (LoanedPool.new T N) ops = true := by
  obtain ⟨⟨_, _, h1, _, h2, _⟩, h3⟩ := LoanedPool.run_freeListExact hsize ops
    (LoanedPool.new T N) (LoanedPool.new_freeListExact T N) hon
  exact ⟨h1, h2, h3⟩

/-- A three-slot pool of one-byte elements: `a = get()`, `b = get()`, `free(a)`,
`c = get()`, `free(b)` leaves slot 0 on loan and `available[1..3) = [1, 2]`. -/
theorem LoanedPool.free_list_exact_for_byte_elements_witness :
    3 < 2 ^ 64 ∧
      LoanedPool.freesOnLoan 1 (LoanedPool.new Nat 3)
        [.get, .get, .free 0, .get, .free 1] = true ∧
      (LoanedPool.run 1 (LoanedPool.new Nat 3) [.get, .get, .free 0, .get, .free 1]).loans =
        [0] ∧
      (LoanedPool.run 1 (LoanedPool.new Nat 3)
        [.get, .get, .free 0, .get, .free 1]).pool.available.drop
          (LoanedPool.run 1 (LoanedPool.new Nat 3)
            [.get, .get, .free 0, .get, .free 1]).pool.top = [1, 2] ∧
      LoanedPool.getsFree 1 (LoanedPool.new Nat 3) [.get, .get, .free 0, .get, .free 1] = true :=
  ⟨by decide, by decide, by decide, by decide,
    (LoanedPool.free_list_exact_for_byte_elements Nat 3 (by decide)
      [.get, .get, .free 0, .get, .free 1] (by decide)).2.2⟩

/-- Claim C18: `SerialDevice::Write(data, size)` throws "Data size exceeds the
limit" exactly when `size > kBufferSize`, which is 4096; for every
`size ≤ 4096` it returns `true` and leaves `input_length`, `output_length` and
the input buffer unchanged. -/
theorem SerialDevice.write_throws_iff (d : SerialDevice) (data : List Nat) (size : Nat) :
    kBufferSize = 4096 ∧
      ((d.Write data size).1 = Except.error DeviceError.sizeExceeded ↔ size > kBufferSize) ∧
      ((∃ e, (d.Write data size).1 = Except.error e) ↔ size > 4096) ∧
      (size ≤ 4096 →
        (d.Write data size).1 = Except.ok true ∧
          (d.Write data size).2.input_length = d.input_length ∧
          (d.Write data size).2.output_length = d.output_length ∧
          (d.Write data size).2.input_buffer = d.input_buffer) := by
  refine ⟨rfl, ?_⟩
  by_cases h : size > kBufferSize
  · have hw : d.Write data size = (Except.error DeviceError.sizeExceeded, d) := by
      simp only [SerialDevice.Write]
      rw [if_pos h]
    have h' : size > 4096 := h
    rw [hw]
    refine ⟨⟨fun _ => h, fun _ => rfl⟩, ⟨fun _ => h', fun _ => ⟨_, rfl⟩⟩, ?_⟩
    intro hc
    omega
  · have hw : d.Write data size =
        (Except.ok true, { d with output_buffer := memcpy d.output_buffer data size }) := by
      simp only [SerialDevice.Write]
      rw [if_neg h]
    have h' : ¬ size > 4096 := h
    rw [hw]
    refine ⟨⟨fun hc => ?_, fun hc => absurd hc h⟩,
      ⟨fun hc => ?_, fun hc => absurd hc h'⟩, fun _ => ⟨rfl, rfl, rfl, rfl⟩⟩
    · cases hc
    · obtain ⟨e, he⟩ := hc
      cases he

end MemoryManagement
